import Mathlib

/-!
Verification of the matching / geometric-verification core described in the
repository specification, together with the orchestration and feature
extraction code of `image_matching.py`.

The descriptor matcher and the geometric verifier live in the external
helper `utils.opencvhelper.MatcherWrapper`, whose code is not part of the
repository snapshot; those components are modelled from the specification
(§4.1, §4.2, §7, §8).  The orchestration (`main`), the local feature
extractor (`extract_local_features`) and the augmented feature extractor
(`extract_augmented_features`) are translated from `image_matching.py`.

Real-valued descriptor entries are modelled by `ℚ` for the matcher and the
verifier (any linearly ordered field carries the same algorithms; `ℚ` keeps
every operation decidable), and by `ℝ` where the source divides by an
L2-norm (`extract_local_features`), the square root being passed as an
explicit function parameter so that all definitions stay computable.
-/

/-- Modelled from the spec: a descriptor is a fixed-length numeric vector
(§3); entries are modelled as rationals. -/
abbrev Desc := List ℚ

/-- Modelled from the spec: squared Euclidean distance between two
descriptors (§4.1 compares descriptors by Euclidean distance; comparing
squared distances yields the same nearest-neighbour order, and the ratio
test below compares against the squared threshold). -/
def sqDist (u v : Desc) : ℚ := (List.zipWith (fun a b => (a - b) ^ 2) u v).sum

/-- Modelled from the spec: index and value of the minimum of a list of
distances, ties resolved by stable input order — first-found wins (§4.1).
Returns `none` exactly on the empty list. -/
def nn1 : List ℚ → Option (ℕ × ℚ)
  | [] => none
  | d :: rest =>
    match nn1 rest with
    | none => some (0, d)
    | some s => if d ≤ s.2 then some (0, d) else some (s.1 + 1, s.2)

/-- Modelled from the spec: nearest neighbour of query `q` in descriptor
set `B`, as `(index, squared distance)` (§4.1). -/
def nnOf (q : Desc) (B : List Desc) : Option (ℕ × ℚ) := nn1 (B.map (sqDist q))

/-- Modelled from the spec: squared distance of the second-nearest
neighbour of `q` in `B`, given that the nearest has index `j` — the best of
the remaining candidates, as in a k-nearest-neighbour query with k = 2
(§4.1, §9). -/
def sndDistOf (q : Desc) (B : List Desc) (j : ℕ) : Option ℚ :=
  (nn1 ((B.map (sqDist q)).eraseIdx j)).map (fun s => s.2)

/-- Modelled from the spec: the ratio test (§4.1) — when a threshold is
provided, accept only if `d(nearest) < r · d(second_nearest)` in Euclidean
terms, i.e. `d² (nearest) < r² · d² (second_nearest)` on squared
distances.  When no second neighbour exists (a single candidate) there is
no ambiguity to reject and the match is accepted. -/
def ratioOk (rOpt : Option ℚ) (q : Desc) (B : List Desc) (j : ℕ) (d1 : ℚ) : Bool :=
  match rOpt with
  | none => true
  | some r =>
    match sndDistOf q B j with
    | none => true
    | some d2 => decide (d1 < r ^ 2 * d2)

/-- Modelled from the spec: the cross-check (§4.1) — accept an A→B match
`(i, j)` only if the nearest neighbour of B's descriptor `j` among all of A
is again `i`. -/
def crossOk (cc : Bool) (i j : ℕ) (A B : List Desc) : Bool :=
  if cc then
    match nnOf (B.getD j []) A with
    | none => false
    | some s => decide (s.1 = i)
  else true

/-- Modelled from the spec: the descriptor matcher (§4.1).  For each
descriptor of `A` take its nearest neighbour in `B`, keep the candidate
when it passes the (optional) ratio test and the (optional) cross-check;
an empty `B` yields an empty match list (§7). -/
def matchDesc (A B : List Desc) (rOpt : Option ℚ) (cc : Bool) : List (ℕ × ℕ) :=
  (List.range A.length).filterMap (fun i =>
    match nnOf (A.getD i []) B with
    | none => none
    | some s =>
      if ratioOk rOpt (A.getD i []) B s.1 s.2 && crossOk cc i s.1 A B
      then some (i, s.1) else none)

/-- Modelled from the spec: a keypoint carries at least its pixel
coordinates (§3, §6); only `(x, y)` matter to the verifier. -/
structure Kpt where
  x : ℚ
  y : ℚ

/-- Modelled from the spec: an aligned coordinate pair of a matched
correspondence (§4.2). -/
abbrev PtPair := (ℚ × ℚ) × (ℚ × ℚ)

/-- Modelled from the spec: extract the 2D pixel coordinates of one match
(§4.2); out-of-range indices default to the origin. -/
def pairOfMatch (kA kB : List Kpt) (m : ℕ × ℕ) : PtPair :=
  (((kA.getD m.1 ⟨0, 0⟩).x, (kA.getD m.1 ⟨0, 0⟩).y),
   ((kB.getD m.2 ⟨0, 0⟩).x, (kB.getD m.2 ⟨0, 0⟩).y))

/-- Dot product of two rational vectors. -/
def dotQ (u v : List ℚ) : ℚ := (List.zipWith (fun a b => a * b) u v).sum

/-- Find the first row whose leading coefficient is nonzero; return that
row and the remaining rows in their original order. -/
def findPivot : List (List ℚ) → Option (List ℚ × List (List ℚ))
  | [] => none
  | r :: rest =>
    if r.headD 0 ≠ 0 then some (r, rest)
    else
      match findPivot rest with
      | none => none
      | some s => some (s.1, r :: s.2)

/-- Eliminate the leading coefficient of row `s` using pivot row `p` and
drop the (now zero) leading entry. -/
def elimRow (p s : List ℚ) : List ℚ :=
  (List.zipWith (fun a b => a - (s.headD 0 / p.headD 0) * b) s p).tail

/-- Gaussian elimination with partial pivoting on an augmented system of
`n` unknowns (each row lists `n` coefficients followed by the right-hand
side); returns the solution vector, or `none` for a singular system
— a degenerate RANSAC sample that is skipped (§7). -/
def gaussSolve : ℕ → List (List ℚ) → Option (List ℚ)
  | 0, _ => some []
  | n + 1, rows =>
    match findPivot rows with
    | none => none
    | some pr =>
      match gaussSolve n (pr.2.map (elimRow pr.1)) with
      | none => none
      | some xs =>
        some (((pr.1.tail.getD n 0 - dotQ (pr.1.tail.take n) xs) / pr.1.headD 0) :: xs)

/-- Modelled from the spec: the epipolar constraint row of one
correspondence for the 8-point fundamental-matrix fit with the scale fixed
by `F₃₃ = 1` (§4.2): coefficients of `(f₁₁ … f₃₂)` followed by the
right-hand side `-1`. -/
def epiRow (p : PtPair) : List ℚ :=
  [p.2.1 * p.1.1, p.2.1 * p.1.2, p.2.1,
   p.2.2 * p.1.1, p.2.2 * p.1.2, p.2.2,
   p.1.1, p.1.2, -1]

/-- Modelled from the spec: fit a candidate fundamental matrix (nine
entries, row major, `F₃₃ = 1`) from a minimal sample of correspondences
(§4.2); `none` when the sample is degenerate. -/
def fitF (sample : List PtPair) : Option (List ℚ) :=
  (gaussSolve 8 (sample.map epiRow)).map (fun f => f ++ [1])

/-- Entry `i` of a fundamental matrix stored as a row-major 9-vector. -/
def fAt (F : List ℚ) (i : ℕ) : ℚ := F.getD i 0

/-- Modelled from the spec: the algebraic epipolar residual
`x'ᵀ F x` of a correspondence (§4.2). -/
def epiNum (F : List ℚ) (p : PtPair) : ℚ :=
  p.2.1 * (fAt F 0 * p.1.1 + fAt F 1 * p.1.2 + fAt F 2) +
  p.2.2 * (fAt F 3 * p.1.1 + fAt F 4 * p.1.2 + fAt F 5) +
  (fAt F 6 * p.1.1 + fAt F 7 * p.1.2 + fAt F 8)

/-- Modelled from the spec: the Sampson normalisation term
`(Fx)₁² + (Fx)₂² + (Fᵀx')₁² + (Fᵀx')₂²`, making `epiNum² / epiDen` the
symmetric first-order epipolar-distance metric used to score
correspondences (§4.2). -/
def epiDen (F : List ℚ) (p : PtPair) : ℚ :=
  (fAt F 0 * p.1.1 + fAt F 1 * p.1.2 + fAt F 2) ^ 2 +
  (fAt F 3 * p.1.1 + fAt F 4 * p.1.2 + fAt F 5) ^ 2 +
  (fAt F 0 * p.2.1 + fAt F 3 * p.2.2 + fAt F 6) ^ 2 +
  (fAt F 1 * p.2.1 + fAt F 4 * p.2.2 + fAt F 7) ^ 2

/-- Modelled from the spec: a correspondence is an inlier of model `F` when
its Sampson epipolar distance is below the pixel threshold `t` (§4.2),
stated on squared quantities to stay rational: `epiNum² < t² · epiDen`. -/
def isInlier (F : List ℚ) (p : PtPair) (t : ℚ) : Bool :=
  decide (epiNum F p ^ 2 < t ^ 2 * epiDen F p)

/-- Modelled from the spec: one step of the explicit seeded pseudorandom
generator threaded through RANSAC (§4.2, §9) — a 64-bit linear
congruential generator. -/
def lcgNext (s : ℕ) : ℕ := (6364136223846793005 * s + 1442695040888963407) % (2 ^ 64)

/-- Draw `k` indices below `n` from the generator, returning them together
with the advanced generator state. -/
def drawIdxs : ℕ → ℕ → ℕ → List ℕ × ℕ
  | 0, s, _ => ([], s)
  | k + 1, s, n =>
    let s' := lcgNext s
    let rest := drawIdxs k s' n
    ((s' % n) :: rest.1, rest.2)

/-- Modelled from the spec: the minimal sample size of the fundamental
matrix model — 8 correspondences (§4.2). -/
def minSample : ℕ := 8

/-- Modelled from the spec: the fixed RANSAC iteration cap (§4.2). -/
def ransacRounds : ℕ := 2000

/-- Modelled from the spec: the RANSAC loop (§4.2) — per round, draw a
minimal sample, fit a candidate model (degenerate samples are skipped but
consume a round), score every correspondence, and keep the candidate with
the largest inlier count seen so far. -/
def ransacIter : ℕ → ℕ → List PtPair → ℚ → Option (List ℚ) → ℕ → Option (List ℚ)
  | 0, _, _, _, best, _ => best
  | k + 1, s, ps, t, best, bestCnt =>
    let dr := drawIdxs minSample s ps.length
    match fitF (dr.1.map (fun i => ps.getD i ((0, 0), (0, 0)))) with
    | none => ransacIter k dr.2 ps t best bestCnt
    | some F =>
      let cnt := ps.countP (fun p => isInlier F p t)
      if bestCnt < cnt then ransacIter k dr.2 ps t (some F) cnt
      else ransacIter k dr.2 ps t best bestCnt

/-- Modelled from the spec: the geometric verifier (§4.2, §7).  With fewer
correspondences than the minimal sample size it attempts no estimation and
returns no model together with an all-false mask; otherwise it runs the
RANSAC loop and recomputes the final inlier mask of the winning model,
aligned 1:1 with the input match list. -/
def verify (ms : List (ℕ × ℕ)) (kA kB : List Kpt) (t : ℚ) (seed : ℕ) :
    Option (List ℚ) × List Bool :=
  if ms.length < minSample then (none, List.replicate ms.length false)
  else
    match ransacIter ransacRounds seed (ms.map (pairOfMatch kA kB)) t none 0 with
    | none => (none, List.replicate ms.length false)
    | some F => (some F, ms.map (fun m => isInlier F (pairOfMatch kA kB m) t))

/-- Modelled from the spec: the verifier accepts an optional seed (§4.2);
when none is given, the seed comes from an unspecified entropy source,
modelled as an extra parameter. -/
def verifyOptSeed (entropy : ℕ) (seedOpt : Option ℕ) (ms : List (ℕ × ℕ))
    (kA kB : List Kpt) (t : ℚ) : Option (List ℚ) × List Bool :=
  verify ms kA kB t (seedOpt.getD entropy)

/-- Modelled from the spec: the combined match-and-verify convenience
operation (§4.3) — the single entry point the orchestration depends on,
returning the putative match list together with its inlier mask. -/
def get_matches (feat1 feat2 : List Desc) (kpts1 kpts2 : List Kpt)
    (rOpt : Option ℚ) (cc : Bool) (t : ℚ) (entropy : ℕ) (seedOpt : Option ℕ)
    (info : String) : List (ℕ × ℕ) × List Bool :=
  let _ := info
  let ms := matchDesc feat1 feat2 rOpt cc
  (ms, (verifyOptSeed entropy seedOpt ms kpts1 kpts2 t).2)

/-- Orchestration of `main` in `image_matching.py` (lines 112–126): three
`get_matches` calls on the SIFT, raw local and augmented descriptor sets —
`ratio=0.8 if FLAGS.ratio_test else None` for SIFT and `0.89` for the two
learned sets, `cross_check=FLAGS.cross_check`, `err_thld=3`, and no
explicit seed.  `rt` and `cc` are the two command-line flags. -/
def mainMatches (rt cc : Bool) (sift1 sift2 loc1 loc2 aug1 aug2 : List Desc)
    (k1 k2 : List Kpt) (entropy : ℕ) :
    (List (ℕ × ℕ) × List Bool) × (List (ℕ × ℕ) × List Bool) × (List (ℕ × ℕ) × List Bool) :=
  (get_matches sift1 sift2 k1 k2 (if rt then some (8 / 10) else none) cc 3 entropy none
      "SIFT feautre",
   get_matches loc1 loc2 k1 k2 (if rt then some (89 / 100) else none) cc 3 entropy none
      "Raw local feature",
   get_matches aug1 aug2 k1 k2 (if rt then some (89 / 100) else none) cc 3 entropy none
      "Augmented local feature")

/-- An OpenCV keypoint as used by `extract_local_features` (line 73):
position, size, angle and response, over a numeric type `α`. -/
structure CvKpt (α : Type) where
  ptx : α
  pty : α
  size : α
  angle : α
  response : α

/-- The tuple returned by `model.run_test_data` for one image in
`extract_local_features` (line 72); the model itself is an opaque upstream
collaborator (spec §1, §6). -/
structure LocOutput (α : Type) where
  loc_feat : List (List α)
  kpt_mb : List (List α)
  normalized_xy : List (List α)
  cv_kpts : List (CvKpt α)
  sift_desc : List (List α)

/-- The raw keypoint row `(pt[0], pt[1], size, angle, response)` built on
line 73 of `image_matching.py`. -/
def rawKptRow {α : Type} (k : CvKpt α) : List α :=
  [k.ptx, k.pty, k.size, k.angle, k.response]

/-- The per-image `loc_info` array of line 75:
`np.concatenate((raw_kpts, normalized_xy, loc_feat, kpt_mb), axis=-1)`,
i.e. row-wise concatenation of the four arrays. -/
def locInfoOf {α : Type} (o : LocOutput α) : List (List α) :=
  List.zipWith (fun a b => a ++ b)
    (List.zipWith (fun a b => a ++ b)
      (List.zipWith (fun a b => a ++ b) (o.cv_kpts.map rawKptRow) o.normalized_xy)
      o.loc_feat)
    o.kpt_mb

/-- The row-wise L2 normalisation of line 79:
`loc_feat / np.linalg.norm(loc_feat, axis=-1, keepdims=True)`.  The square
root is passed explicitly (`Real.sqrt` at `α = ℝ`) so the definition stays
computable at decidable fields. -/
def l2normalize {α : Type} [Field α] (sqrtFn : α → α) (v : List α) : List α :=
  v.map (fun a => a / sqrtFn ((v.map (fun b => b ^ 2)).sum))

/-- `extract_local_features` of `image_matching.py` (lines 61–81): per
image, collect the OpenCV keypoints, the concatenated `loc_info` rows, the
row-normalised raw local descriptors, and the untouched SIFT descriptors,
returned as `(cv_kpts_list, loc_info_list, loc_feat_list, sift_feat_list)`. -/
def extract_local_features {Img α : Type} [Field α] (sqrtFn : α → α)
    (run_test : Img → LocOutput α) (gray_list : List Img) :
    List (List (CvKpt α)) × List (List (List α)) × List (List (List α)) ×
      List (List (List α)) :=
  (gray_list.map (fun g => (run_test g).cv_kpts),
   gray_list.map (fun g => locInfoOf (run_test g)),
   gray_list.map (fun g => ((run_test g).loc_feat).map (l2normalize sqrtFn)),
   gray_list.map (fun g => (run_test g).sift_desc))

/-- `extract_augmented_features` of `image_matching.py` (lines 84–92): the
assertion `len(reg_feat_list) == len(loc_info_list)` guards the loop that
feeds each aligned pair to the opaque augmentation model `run_aug`; a
failed assertion aborts before any element is processed, modelled as
`none`. -/
def extract_augmented_features {R L A : Type} (run_aug : R → L → A)
    (reg_feat_list : List R) (loc_info_list : List L) : Option (List A) :=
  if reg_feat_list.length = loc_info_list.length then
    some ((reg_feat_list.zip loc_info_list).map (fun p => run_aug p.1 p.2))
  else none

theorem nn1_eq_none_iff {l : List ℚ} : nn1 l = none ↔ l = [] := by
  constructor
  · intro h
    cases l with
    | nil => rfl
    | cons d rest =>
      rw [nn1] at h
      rcases hr : nn1 rest with _ | s
      · rw [hr] at h; exact absurd h (by simp)
      · rw [hr] at h
        by_cases hle : d ≤ s.2 <;> simp [hle] at h
  · rintro rfl; rfl

theorem exists_nn1_of_ne_nil {l : List ℚ} (h : l ≠ []) : ∃ s, nn1 l = some s := by
  rcases hn : nn1 l with _ | s
  · exact absurd (nn1_eq_none_iff.mp hn) h
  · exact ⟨s, rfl⟩

theorem nn1_val_mem : ∀ {l : List ℚ} {s : ℕ × ℚ}, nn1 l = some s → s.2 ∈ l := by
  intro l
  induction l with
  | nil => intro s h; exact absurd h (by simp [nn1])
  | cons d rest ih =>
    intro s h
    rw [nn1] at h
    split at h
    · cases h; exact List.mem_cons_self _ _
    · rename_i s' hr
      split at h
      · cases h; exact List.mem_cons_self _ _
      · cases h
        have hmem := ih hr
        exact List.mem_cons_of_mem _ hmem

theorem mem_matchDesc {A B : List Desc} {rOpt : Option ℚ} {cc : Bool} {m : ℕ × ℕ}
    (h : m ∈ matchDesc A B rOpt cc) :
    m.1 < A.length ∧ ∃ d1, nnOf (A.getD m.1 []) B = some (m.2, d1) ∧
      ratioOk rOpt (A.getD m.1 []) B m.2 d1 = true ∧
      crossOk cc m.1 m.2 A B = true := by
  rw [matchDesc, List.mem_filterMap] at h
  rcases h with ⟨i, hi, hbody⟩
  split at hbody
  · exact absurd hbody (by simp)
  · rename_i s hnn
    split at hbody
    · rename_i hc
      have hm : m = (i, s.1) := (Option.some_inj.mp hbody).symm
      rw [Bool.and_eq_true] at hc
      subst hm
      refine ⟨List.mem_range.mp hi, s.2, ?_, hc.1, hc.2⟩
      simpa using hnn
    · exact absurd hbody (by simp)

theorem nnOf_isSome_of_ne_nil {q : Desc} {B : List Desc} (hB : B ≠ []) :
    ∃ s, nnOf q B = some s := by
  apply exists_nn1_of_ne_nil
  simpa using hB

theorem crossOk_true_elim {i j : ℕ} {A B : List Desc}
    (h : crossOk true i j A B = true) :
    ∃ d, nnOf (B.getD j []) A = some (i, d) := by
  rw [crossOk, if_pos rfl] at h
  split at h
  · exact absurd h (by simp)
  · rename_i s hs
    have h1 : s.1 = i := of_decide_eq_true h
    exact ⟨s.2, by rw [hs, ← h1]⟩

theorem ratioOk_some_elim {r : ℚ} {q : Desc} {B : List Desc} {j : ℕ} {d1 d2 : ℚ}
    (hs : sndDistOf q B j = some d2)
    (h : ratioOk (some r) q B j d1 = true) : d1 < r ^ 2 * d2 := by
  simp only [ratioOk] at h
  split at h
  · rename_i hnone
    rw [hs] at hnone
    exact absurd hnone (by simp)
  · rename_i d2' hsome
    injection hs.symm.trans hsome with hd
    subst hd
    exact of_decide_eq_true h

theorem filterMap_map_fst_eq (body : ℕ → Option (ℕ × ℕ)) :
    ∀ l : List ℕ, (∀ a ∈ l, ∃ j, body a = some (a, j)) →
      (l.filterMap body).map Prod.fst = l := by
  intro l
  induction l with
  | nil => intro _; rfl
  | cons a t ih =>
    intro h
    rcases h a (List.mem_cons_self a t) with ⟨j, hj⟩
    simp only [List.filterMap_cons, hj, List.map_cons]
    exact congrArg (List.cons a) (ih (fun b hb => h b (List.mem_cons_of_mem a hb)))

theorem pairwise_fst_filterMap (body : ℕ → Option (ℕ × ℕ))
    (hb : ∀ a m, body a = some m → m.1 = a) :
    ∀ l : List ℕ, l.Pairwise (fun a b => a ≠ b) →
      (l.filterMap body).Pairwise (fun x y => x.1 ≠ y.1) := by
  intro l
  induction l with
  | nil => intro _; simp
  | cons a t ih =>
    intro h
    rw [List.pairwise_cons] at h
    rcases hba : body a with _ | m
    · simpa [List.filterMap_cons, hba] using ih h.2
    · simp only [List.filterMap_cons, hba]
      refine List.Pairwise.cons ?_ (ih h.2)
      intro y hy
      rcases List.mem_filterMap.mp hy with ⟨b, hbt, hby⟩
      rw [hb a m hba, hb b y hby]
      exact h.1 b hbt

theorem matchDesc_body_fst (A B : List Desc) (rOpt : Option ℚ) (cc : Bool) :
    ∀ a m, (match nnOf (A.getD a []) B with
      | none => none
      | some s =>
        if ratioOk rOpt (A.getD a []) B s.1 s.2 && crossOk cc a s.1 A B
        then some (a, s.1) else none) = some m → m.1 = a := by
  intro a m h
  split at h
  · exact absurd h (by simp)
  · split at h
    · cases h; rfl
    · exact absurd h (by simp)

theorem sqDist_nonneg : ∀ (u v : Desc), 0 ≤ sqDist u v := by
  intro u
  induction u with
  | nil => intro v; cases v <;> simp [sqDist]
  | cons a u ih =>
    intro v
    cases v with
    | nil => simp [sqDist]
    | cons b v =>
      have h := ih v
      simp only [sqDist, List.zipWith_cons_cons, List.sum_cons] at h ⊢
      have h2 : (0 : ℚ) ≤ (a - b) ^ 2 := sq_nonneg _
      linarith

theorem nnOf_val_nonneg {q : Desc} {B : List Desc} {s : ℕ × ℚ}
    (h : nnOf q B = some s) : 0 ≤ s.2 := by
  have hm := nn1_val_mem h
  rcases List.mem_map.mp hm with ⟨v, _, hv⟩
  rw [← hv]
  exact sqDist_nonneg q v

theorem sndDistOf_val_nonneg {q : Desc} {B : List Desc} {j : ℕ} {d : ℚ}
    (h : sndDistOf q B j = some d) : 0 ≤ d := by
  rw [sndDistOf] at h
  rcases hn : nn1 ((B.map (sqDist q)).eraseIdx j) with _ | s
  · rw [hn] at h; exact absurd h (by simp)
  · rw [hn] at h
    have hd : s.2 = d := by simpa using h
    have hm := nn1_val_mem hn
    have hm' : s.2 ∈ B.map (sqDist q) := List.eraseIdx_subset _ _ hm
    rcases List.mem_map.mp hm' with ⟨v, _, hv⟩
    rw [← hd, ← hv]
    exact sqDist_nonneg q v

theorem sndDistOf_isSome {q : Desc} {B : List Desc} {j : ℕ} (hB : 2 ≤ B.length) :
    ∃ d, sndDistOf q B j = some d := by
  have hlen : ((B.map (sqDist q)).eraseIdx j).length ≠ 0 := by
    rw [List.length_eraseIdx]
    rw [List.length_map]
    split <;> omega
  have hne : (B.map (sqDist q)).eraseIdx j ≠ [] := by
    intro hnil; exact hlen (by rw [hnil]; rfl)
  rcases exists_nn1_of_ne_nil hne with ⟨s, hs⟩
  exact ⟨s.2, by rw [sndDistOf, hs]; rfl⟩

/-- Claim C1, counterexample: with the ratio test and cross-check disabled
the matcher does **not** return one match per A descriptor for *every*
pair of descriptor sets — for `A = [[0]]` and the empty descriptor set
`B = []` there is no nearest neighbour, and the match list is empty while
`A` has one element (spec §7 itself mandates the empty result). -/
theorem claim_C1_counterexample :
    ¬ ((matchDesc [[(0 : ℚ)]] [] none false).length
        = ([[(0 : ℚ)]] : List Desc).length) := by
  decide

/-- Claim C1 (amended): for every descriptor set `A` and every **nonempty**
descriptor set `B`, with the ratio test and cross-check disabled the
matcher returns exactly one match per A descriptor — the A indices of the
match list are exactly `0, …, len A - 1` in order, `len matches = len A`,
and each match pairs an A index with its nearest neighbour in `B`. -/
theorem claim_C1_amended (A B : List Desc) (hB : B ≠ []) :
    (matchDesc A B none false).length = A.length ∧
    (matchDesc A B none false).map Prod.fst = List.range A.length ∧
    ∀ m ∈ matchDesc A B none false, ∃ d, nnOf (A.getD m.1 []) B = some (m.2, d) := by
  have hbody : ∀ a ∈ List.range A.length, ∃ j,
      (match nnOf (A.getD a []) B with
        | none => none
        | some s => if ratioOk none (A.getD a []) B s.1 s.2 && crossOk false a s.1 A B
            then some (a, s.1) else none) = some (a, j) := by
    intro a _
    rcases nnOf_isSome_of_ne_nil (q := A.getD a []) hB with ⟨s, hs⟩
    refine ⟨s.1, ?_⟩
    rw [hs]
    simp [ratioOk, crossOk]
  have hfst : (matchDesc A B none false).map Prod.fst = List.range A.length := by
    rw [matchDesc]
    exact filterMap_map_fst_eq _ _ hbody
  refine ⟨?_, hfst, ?_⟩
  · have hlen := congrArg List.length hfst
    simpa using hlen
  · intro m hm
    rcases mem_matchDesc hm with ⟨_, d1, hnn, _, _⟩
    exact ⟨d1, hnn⟩

/-- Claim C1 (amended), witness at a concrete input: `A = [[0], [10]]`,
`B = [[1], [9]]`. -/
theorem claim_C1_witness :
    (([[(1 : ℚ)], [9]] : List Desc) ≠ []) ∧
    (matchDesc [[(0 : ℚ)], [10]] [[1], [9]] none false).length
      = ([[(0 : ℚ)], [10]] : List Desc).length :=
  ⟨by simp, (claim_C1_amended [[(0 : ℚ)], [10]] [[1], [9]] (by simp)).1⟩

/-- Claim C2: with cross-check enabled, no two matches share the same A
index, no two matches share the same B index, and every retained match
`(i, j)` is such that the nearest neighbour of B's descriptor `j` among all
of A is `i`. -/
theorem claim_C2 (A B : List Desc) (rOpt : Option ℚ) :
    (matchDesc A B rOpt true).Pairwise (fun m m' => m.1 ≠ m'.1) ∧
    (matchDesc A B rOpt true).Pairwise (fun m m' => m.2 ≠ m'.2) ∧
    ∀ m ∈ matchDesc A B rOpt true, ∃ d, nnOf (B.getD m.2 []) A = some (m.1, d) := by
  have hnn : ∀ m ∈ matchDesc A B rOpt true, ∃ d, nnOf (B.getD m.2 []) A = some (m.1, d) := by
    intro m hm
    rcases mem_matchDesc hm with ⟨_, d1, _, _, hcr⟩
    exact crossOk_true_elim hcr
  have hfst : (matchDesc A B rOpt true).Pairwise (fun m m' => m.1 ≠ m'.1) := by
    rw [matchDesc]
    exact pairwise_fst_filterMap _ (matchDesc_body_fst A B rOpt true) _
      (List.nodup_range A.length)
  refine ⟨hfst, ?_, hnn⟩
  refine List.Pairwise.imp_of_mem ?_ hfst
  intro m m' hm hm' hR heq
  rcases hnn m hm with ⟨d, hd⟩
  rcases hnn m' hm' with ⟨d', hd'⟩
  rw [heq] at hd
  have hpair := Option.some_inj.mp (hd.symm.trans hd')
  have h1 := congrArg Prod.fst hpair
  exact hR h1

/-- Claim C2, witness at a concrete input: `A = [[0], [10]]`,
`B = [[1], [9]]` with cross-check; the retained match `(0, 0)` has `0` as
the nearest neighbour of `B 0` in `A`. -/
theorem claim_C2_witness :
    ((0, 0) ∈ matchDesc [[(0 : ℚ)], [10]] [[1], [9]] none true) ∧
    ∃ d, nnOf (([[(1 : ℚ)], [9]] : List Desc).getD 0 []) [[(0 : ℚ)], [10]]
      = some (0, d) :=
  ⟨by norm_num [matchDesc, nnOf, nn1, sqDist, crossOk, ratioOk, List.range_succ,
      List.filterMap, List.getD, List.zipWith]; decide,
   (claim_C2 [[(0 : ℚ)], [10]] [[1], [9]] none).2.2 (0, 0)
     (by norm_num [matchDesc, nnOf, nn1, sqDist, crossOk, ratioOk, List.range_succ,
       List.filterMap, List.getD, List.zipWith]; decide)⟩

/-- Claim C3: when the ratio test is enabled with threshold `r` (a positive
threshold, and `B` large enough that a second-nearest neighbour exists),
every surviving match satisfies the ratio criterion: on squared distances
`d1 < r² · d2`, equivalently `√d1 / √d2 < r` — the spec's
`distance(nearest) / distance(second_nearest) < r` on Euclidean
distances. -/
theorem claim_C3 (A B : List Desc) (r : ℚ) (cc : Bool) (m : ℕ × ℕ)
    (hm : m ∈ matchDesc A B (some r) cc) (hB : 2 ≤ B.length) (hr : 0 < r) :
    ∃ d1 d2, nnOf (A.getD m.1 []) B = some (m.2, d1) ∧
      sndDistOf (A.getD m.1 []) B m.2 = some d2 ∧
      d1 < r ^ 2 * d2 ∧
      Real.sqrt (d1 : ℝ) / Real.sqrt (d2 : ℝ) < (r : ℝ) := by
  rcases mem_matchDesc hm with ⟨_, d1, hnn, hrt, _⟩
  rcases sndDistOf_isSome (q := A.getD m.1 []) (j := m.2) hB with ⟨d2, hd2⟩
  have hlt : d1 < r ^ 2 * d2 := ratioOk_some_elim hd2 hrt
  have hd1n : 0 ≤ d1 := by
    have hnn' := nnOf_val_nonneg hnn
    simpa using hnn'
  have hd2p : 0 < d2 := by nlinarith [sq_nonneg r]
  have hltR : (d1 : ℝ) < (r : ℝ) ^ 2 * (d2 : ℝ) := by exact_mod_cast hlt
  have hd1nR : (0 : ℝ) ≤ (d1 : ℝ) := by exact_mod_cast hd1n
  have hrR : (0 : ℝ) < (r : ℝ) := by exact_mod_cast hr
  have hd2pR : (0 : ℝ) < (d2 : ℝ) := by exact_mod_cast hd2p
  have hs1 : Real.sqrt (d1 : ℝ) < Real.sqrt ((r : ℝ) ^ 2 * (d2 : ℝ)) :=
    Real.sqrt_lt_sqrt hd1nR hltR
  have hs2 : Real.sqrt ((r : ℝ) ^ 2 * (d2 : ℝ)) = (r : ℝ) * Real.sqrt (d2 : ℝ) := by
    rw [Real.sqrt_mul (sq_nonneg _), Real.sqrt_sq hrR.le]
  have hs3 : Real.sqrt (d1 : ℝ) < (r : ℝ) * Real.sqrt (d2 : ℝ) := hs2 ▸ hs1
  have hsp : 0 < Real.sqrt (d2 : ℝ) := Real.sqrt_pos.mpr hd2pR
  refine ⟨d1, d2, hnn, hd2, hlt, ?_⟩
  rw [div_lt_iff₀ hsp]
  exact hs3

/-- Claim C3, witness at a concrete input: `A = [[0]]`, `B = [[1], [5]]`,
ratio threshold `1/2`. -/
theorem claim_C3_witness :
    ∃ d1 d2, nnOf [(0 : ℚ)] [[1], [5]] = some (0, d1) ∧
      sndDistOf [(0 : ℚ)] [[1], [5]] 0 = some d2 ∧
      d1 < (1 / 2 : ℚ) ^ 2 * d2 ∧
      Real.sqrt (d1 : ℝ) / Real.sqrt (d2 : ℝ) < ((1 / 2 : ℚ) : ℝ) :=
  claim_C3 [[0]] [[1], [5]] (1 / 2) false (0, 0)
    (by
      norm_num [matchDesc, nnOf, nn1, sqDist, crossOk, ratioOk, sndDistOf,
        List.range_succ, List.filterMap, List.getD, List.zipWith, List.eraseIdx]
      decide)
    (by decide) (by norm_num)

/-- Claim C4: for every input match list the verifier returns an inlier
mask of the same length, and the number of `true` entries is at most the
match count. -/
theorem claim_C4 (ms : List (ℕ × ℕ)) (kA kB : List Kpt) (t : ℚ) (seed : ℕ) :
    (verify ms kA kB t seed).2.length = ms.length ∧
    (verify ms kA kB t seed).2.count true ≤ ms.length := by
  have hlen : (verify ms kA kB t seed).2.length = ms.length := by
    rw [verify]
    split
    · simp
    · split <;> simp
  refine ⟨hlen, ?_⟩
  calc (verify ms kA kB t seed).2.count true
      ≤ (verify ms kA kB t seed).2.length := List.count_le_length _ _
    _ = ms.length := hlen

/-- Claim C5: with fewer correspondences than the minimal sample size
(8 for the fundamental-matrix model) the verifier attempts no estimation:
it returns no model and an all-false mask of the input length. -/
theorem claim_C5 (ms : List (ℕ × ℕ)) (kA kB : List Kpt) (t : ℚ) (seed : ℕ)
    (h : ms.length < minSample) :
    (verify ms kA kB t seed).1 = none ∧
    (verify ms kA kB t seed).2 = List.replicate ms.length false ∧
    ∀ b ∈ (verify ms kA kB t seed).2, b = false := by
  have hv : verify ms kA kB t seed = (none, List.replicate ms.length false) := by
    rw [verify, if_pos h]
  refine ⟨by rw [hv], by rw [hv], ?_⟩
  intro b hb
  rw [hv] at hb
  exact List.eq_of_mem_replicate hb

/-- Claim C5, witness: 5 matches where 8 are required — no model, all-false
mask, no crash. -/
theorem claim_C5_witness :
    ([((0 : ℕ), (0 : ℕ)), (0, 0), (0, 0), (0, 0), (0, 0)].length < minSample) ∧
    (verify [(0, 0), (0, 0), (0, 0), (0, 0), (0, 0)] [] [] 3 0).1 = none ∧
    (verify [(0, 0), (0, 0), (0, 0), (0, 0), (0, 0)] [] [] 3 0).2
      = List.replicate 5 false :=
  ⟨by decide,
   (claim_C5 [(0, 0), (0, 0), (0, 0), (0, 0), (0, 0)] [] [] 3 0 (by decide)).1,
   (claim_C5 [(0, 0), (0, 0), (0, 0), (0, 0), (0, 0)] [] [] 3 0 (by decide)).2.1⟩

/-- Claim C6: the verifier takes an optional seed; with the same seed fixed,
two runs on the same input yield the same model and the same inlier mask,
independently of the entropy source that would replace an absent seed. -/
theorem claim_C6 (e1 e2 : ℕ) (s : ℕ) (ms : List (ℕ × ℕ)) (kA kB : List Kpt) (t : ℚ) :
    verifyOptSeed e1 (some s) ms kA kB t = verifyOptSeed e2 (some s) ms kA kB t ∧
    verifyOptSeed e1 (some s) ms kA kB t = verify ms kA kB t s :=
  ⟨rfl, rfl⟩

/-- Claim C7: `main` invokes the combined match-and-verify operation
`get_matches` three times — ratio `0.8` for SIFT and `0.89` for the raw
local and augmented descriptors when the ratio-test flag is set (`none`
otherwise), cross-check taken from its flag, and verification threshold
`err_thld = 3`, which lies in the typical 1–5 pixel range; each call
returns the `(matches, inlier_mask)` pair of the matcher and verifier. -/
theorem claim_C7 (rt cc : Bool) (sift1 sift2 loc1 loc2 aug1 aug2 : List Desc)
    (k1 k2 : List Kpt) (entropy : ℕ) :
    (mainMatches rt cc sift1 sift2 loc1 loc2 aug1 aug2 k1 k2 entropy).1
      = get_matches sift1 sift2 k1 k2 (if rt then some (8 / 10) else none) cc 3
          entropy none "SIFT feautre" ∧
    (mainMatches rt cc sift1 sift2 loc1 loc2 aug1 aug2 k1 k2 entropy).2.1
      = get_matches loc1 loc2 k1 k2 (if rt then some (89 / 100) else none) cc 3
          entropy none "Raw local feature" ∧
    (mainMatches rt cc sift1 sift2 loc1 loc2 aug1 aug2 k1 k2 entropy).2.2
      = get_matches aug1 aug2 k1 k2 (if rt then some (89 / 100) else none) cc 3
          entropy none "Augmented local feature" ∧
    (get_matches sift1 sift2 k1 k2 (if rt then some (8 / 10) else none) cc 3
        entropy none "SIFT feautre").1
      = matchDesc sift1 sift2 (if rt then some (8 / 10) else none) cc ∧
    ((1 : ℚ) ≤ 3 ∧ (3 : ℚ) ≤ 5) :=
  ⟨rfl, rfl, rfl, rfl, by norm_num⟩

theorem length_getD_map {σ β γ : Type _} (f : σ → List β) (g : σ → List γ)
    (l : List σ) :
    (∀ x ∈ l, (f x).length = (g x).length) →
    ∀ k, ((l.map f).getD k []).length = ((l.map g).getD k []).length := by
  induction l with
  | nil => intro _ k; rfl
  | cons a t ih =>
    intro h k
    cases k with
    | zero => simpa using h a (List.mem_cons_self a t)
    | succ k =>
      simp only [List.map_cons, List.getD_cons_succ]
      exact ih (fun x hx => h x (List.mem_cons_of_mem a hx)) k

theorem locInfoOf_length {α : Type} (o : LocOutput α)
    (h1 : o.loc_feat.length = o.cv_kpts.length)
    (h2 : o.normalized_xy.length = o.cv_kpts.length)
    (h3 : o.kpt_mb.length = o.cv_kpts.length) :
    (locInfoOf o).length = o.cv_kpts.length := by
  simp [locInfoOf, h1, h2, h3]

/-- Claim C8: provided the opaque local model returns row-aligned arrays
for each image (the contract `np.concatenate` itself enforces), the lists
returned by `extract_local_features` are index-aligned — for every image
`k`, the `k`-th descriptor array (`loc_feat_list`) and the `k`-th
`loc_info` array each have exactly as many rows as the `k`-th keypoint
sequence: `len(descriptors) = len(keypoints)`. -/
theorem claim_C8 {Img α : Type} [Field α] (sqrtFn : α → α)
    (run_test : Img → LocOutput α) (gray_list : List Img)
    (h : ∀ g ∈ gray_list,
      (run_test g).loc_feat.length = (run_test g).cv_kpts.length ∧
      (run_test g).normalized_xy.length = (run_test g).cv_kpts.length ∧
      (run_test g).kpt_mb.length = (run_test g).cv_kpts.length) :
    ∀ k : ℕ,
      (((extract_local_features sqrtFn run_test gray_list).2.2.1).getD k []).length
        = (((extract_local_features sqrtFn run_test gray_list).1).getD k []).length ∧
      (((extract_local_features sqrtFn run_test gray_list).2.1).getD k []).length
        = (((extract_local_features sqrtFn run_test gray_list).1).getD k []).length := by
  intro k
  constructor
  · exact length_getD_map (fun g => ((run_test g).loc_feat).map (l2normalize sqrtFn))
      (fun g => (run_test g).cv_kpts) gray_list
      (fun g hg => by simpa using (h g hg).1) k
  · exact length_getD_map (fun g => locInfoOf (run_test g))
      (fun g => (run_test g).cv_kpts) gray_list
      (fun g hg => locInfoOf_length _ (h g hg).1 (h g hg).2.1 (h g hg).2.2) k

/-- Claim C8, witness at a concrete input: one image whose model output has
one aligned row everywhere. -/
theorem claim_C8_witness :
    (((extract_local_features (fun a : ℚ => a)
        (fun _ : Unit => ⟨[[1]], [[2]], [[3]], [⟨0, 0, 0, 0, 0⟩], []⟩) [()]).2.2.1).getD 0 []).length
      = (((extract_local_features (fun a : ℚ => a)
        (fun _ : Unit => ⟨[[1]], [[2]], [[3]], [⟨0, 0, 0, 0, 0⟩], []⟩) [()]).1).getD 0 []).length ∧
    (((extract_local_features (fun a : ℚ => a)
        (fun _ : Unit => ⟨[[1]], [[2]], [[3]], [⟨0, 0, 0, 0, 0⟩], []⟩) [()]).2.1).getD 0 []).length
      = (((extract_local_features (fun a : ℚ => a)
        (fun _ : Unit => ⟨[[1]], [[2]], [[3]], [⟨0, 0, 0, 0, 0⟩], []⟩) [()]).1).getD 0 []).length :=
  claim_C8 (fun a : ℚ => a)
    (fun _ : Unit => ⟨[[1]], [[2]], [[3]], [⟨0, 0, 0, 0, 0⟩], []⟩) [()]
    (by decide) 0

/-- Claim C9: when the regional feature list and the local info list have
mismatched lengths, `extract_augmented_features` fails fast (the assertion
aborts, modelled as `none`): no element is processed — the result does not
depend on the augmentation model at all — and nothing is silently
truncated. -/
theorem claim_C9 {R L A : Type} (f g : R → L → A) (reg : List R) (loc : List L)
    (h : reg.length ≠ loc.length) :
    extract_augmented_features f reg loc = none ∧
    extract_augmented_features f reg loc = extract_augmented_features g reg loc := by
  constructor <;> simp [extract_augmented_features, h]

/-- Claim C9, witness at a concrete input: one regional feature, zero local
infos. -/
theorem claim_C9_witness :
    extract_augmented_features (fun a b : ℕ => a + b) [1] ([] : List ℕ) = none ∧
    extract_augmented_features (fun a b : ℕ => a + b) [1] ([] : List ℕ)
      = extract_augmented_features (fun a b : ℕ => a * b) [1] ([] : List ℕ) :=
  claim_C9 (fun a b : ℕ => a + b) (fun a b : ℕ => a * b) [1] [] (by decide)

theorem sum_map_div_sq (v : List ℝ) (c : ℝ) :
    (v.map (fun a => (a / c) ^ 2)).sum = (v.map (fun a => a ^ 2)).sum / c ^ 2 := by
  induction v with
  | nil => simp
  | cons a t ih =>
    simp only [List.map_cons, List.sum_cons]
    rw [ih, div_pow, add_div]

theorem l2normalize_norm_one (v : List ℝ) (h : (v.map (fun b => b ^ 2)).sum ≠ 0) :
    Real.sqrt (((l2normalize Real.sqrt v).map (fun b => b ^ 2)).sum) = 1 := by
  have hnn : 0 ≤ (v.map (fun b => b ^ 2)).sum := by
    apply List.sum_nonneg
    intro x hx
    rcases List.mem_map.mp hx with ⟨a, _, rfl⟩
    exact sq_nonneg a
  have hpos : 0 < (v.map (fun b => b ^ 2)).sum := lt_of_le_of_ne hnn (Ne.symm h)
  have hsq : Real.sqrt ((v.map (fun b => b ^ 2)).sum) ^ 2 = (v.map (fun b => b ^ 2)).sum :=
    Real.sq_sqrt hnn
  have hmm : ((l2normalize Real.sqrt v).map (fun b => b ^ 2)).sum
      = (v.map (fun b => b ^ 2)).sum / Real.sqrt ((v.map (fun b => b ^ 2)).sum) ^ 2 := by
    rw [l2normalize, List.map_map]
    simpa using sum_map_div_sq v (Real.sqrt ((v.map (fun b => b ^ 2)).sum))
  rw [hmm, hsq, div_self (ne_of_gt hpos), Real.sqrt_one]

/-- Claim C10: every raw local descriptor row emitted in `loc_feat_list` is
the L2-normalisation of the model's row (`loc_feat / ‖loc_feat‖`), and a
normalised row has Euclidean norm 1 whenever the raw row is nonzero;
the SIFT descriptors are forwarded untouched, and the augmented extractor
likewise applies the opaque model with no normalisation. -/
theorem claim_C10 {Img : Type} (run_test : Img → LocOutput ℝ) (gray_list : List Img) :
    ((extract_local_features Real.sqrt run_test gray_list).2.2.1
        = gray_list.map (fun g => ((run_test g).loc_feat).map (l2normalize Real.sqrt))) ∧
    (∀ v : List ℝ, (v.map (fun b => b ^ 2)).sum ≠ 0 →
      Real.sqrt (((l2normalize Real.sqrt v).map (fun b => b ^ 2)).sum) = 1) ∧
    ((extract_local_features Real.sqrt run_test gray_list).2.2.2
        = gray_list.map (fun g => (run_test g).sift_desc)) ∧
    (∀ (reg loc : List (List ℝ)) (f : List ℝ → List ℝ → List ℝ),
      reg.length = loc.length →
      extract_augmented_features f reg loc
        = some ((reg.zip loc).map (fun p => f p.1 p.2))) := by
  refine ⟨rfl, fun v h => l2normalize_norm_one v h, rfl, ?_⟩
  intro reg loc f h
  simp [extract_augmented_features, h]

/-- Claim C10, witness at a concrete input: the row `[3, 4]` (norm 5)
normalises to a unit vector. -/
theorem claim_C10_witness :
    Real.sqrt (((l2normalize Real.sqrt [(3 : ℝ), 4]).map (fun b => b ^ 2)).sum) = 1 :=
  (claim_C10 (fun _ : Unit => ⟨[], [], [], [], []⟩) []).2.1 [(3 : ℝ), 4] (by norm_num)
